import Mathlib

/-!
# Verification of the revision-matching engine of `migration/run/migrate_runs.go`

This file is a shallow embedding of the core of `migrate_runs.go`:

* `bytesCompare` models Go's `bytes.Compare` on byte slices (bytes as `Nat`);
* `Commit` models `object.Commit` (only the `Hash` field matters here);
* `suffix5` models the expression `commit.Hash[len(commit.Hash)-5:]`;
* `sortByHash` models `sort.Sort(byHash(commits))`: a sort producing a
  permutation ordered by the `byHash.Less` comparison (Go's `sort.Sort` is an
  unspecified comparison sort; its contract is sortedness of a permutation);
* `findHash` is a direct transcription of the recursive binary search;
* `hexDecodeString` models `hex.DecodeString`;
* `resolveRun`, `foundArray`, `runSchedule` model the per-record resolution
  goroutines of `getCommitForRuns`, with `runSchedule` making the completion
  order of the concurrent slot writes explicit;
* `getGit` models the mirror open/clone/pull decision structure over an
  abstract environment describing the outcomes of the git operations.
-/

/-- Model of `object.Commit`: only the hash is relevant.  A hash is a list of
byte values (in the real system, 20 bytes). -/
structure Commit where
  hash : List Nat
deriving DecidableEq, Repr

/-- Model of `shared.TestRun`: only the `Revision` field is relevant. -/
structure TestRun where
  revision : String
deriving DecidableEq, Repr

/-- Model of Go `bytes.Compare`: lexicographic comparison on unsigned byte
values, `-1` if `a < b`, `0` if equal, `1` if `a > b`; a proper prefix is
smaller. -/
def bytesCompare : List Nat → List Nat → Int
  | [], [] => 0
  | [], _ :: _ => -1
  | _ :: _, [] => 1
  | a :: as, b :: bs =>
    if a < b then -1
    else if b < a then 1
    else bytesCompare as bs

theorem bytesCompare_self (a : List Nat) : bytesCompare a a = 0 := by
  induction a with
  | nil => rfl
  | cons x xs ih => simp [bytesCompare, ih]

theorem bytesCompare_eq_zero_iff (a b : List Nat) :
    bytesCompare a b = 0 ↔ a = b := by
  induction a generalizing b with
  | nil => cases b <;> simp [bytesCompare]
  | cons x as ih =>
    cases b with
    | nil => simp [bytesCompare]
    | cons y bs =>
      simp only [bytesCompare]
      split_ifs with h1 h2
      · constructor
        · intro h; exact absurd h (by decide)
        · intro h; injection h with hh ht; omega
      · constructor
        · intro h; exact absurd h (by decide)
        · intro h; injection h with hh ht; omega
      · have hxy : x = y := by omega
        subst hxy
        simp [ih]

theorem bytesCompare_swap (a b : List Nat) :
    bytesCompare a b = -bytesCompare b a := by
  induction a generalizing b with
  | nil => cases b <;> simp [bytesCompare]
  | cons x as ih =>
    cases b with
    | nil => simp [bytesCompare]
    | cons y bs =>
      simp only [bytesCompare]
      split_ifs with h1 h2 h3 <;> first
        | omega
        | exact ih bs

theorem bytesCompare_trichotomy (a b : List Nat) :
    bytesCompare a b = -1 ∨ bytesCompare a b = 0 ∨ bytesCompare a b = 1 := by
  induction a generalizing b with
  | nil => cases b <;> simp [bytesCompare]
  | cons x as ih =>
    cases b with
    | nil => simp [bytesCompare]
    | cons y bs =>
      simp only [bytesCompare]
      split_ifs with h1 h2
      · left; rfl
      · right; right; rfl
      · exact ih bs

theorem bytesCompare_le_trans {a b c : List Nat}
    (h1 : bytesCompare a b ≠ 1) (h2 : bytesCompare b c ≠ 1) :
    bytesCompare a c ≠ 1 := by
  induction a generalizing b c with
  | nil =>
    cases c with
    | nil => simp [bytesCompare]
    | cons z cs => simp [bytesCompare]
  | cons x as ih =>
    cases b with
    | nil => simp [bytesCompare] at h1
    | cons y bs =>
      cases c with
      | nil => simp [bytesCompare] at h2
      | cons z cs =>
        simp only [bytesCompare] at h1 h2 ⊢
        split_ifs at h1 h2 ⊢
        all_goals first
          | omega
          | exact ih h1 h2

/-- The `Less` method of the source's `sort.Interface` implementation
`byHash`: full-hash byte-wise strictly-less. -/
def byHashLess (a b : Commit) : Prop := bytesCompare a.hash b.hash = -1

instance : DecidableRel byHashLess := fun a b => by
  unfold byHashLess; infer_instance

/-- The non-strict ordering induced by `byHashLess` (`¬ Less b a`), i.e.
`a.hash <= b.hash` under unsigned byte-wise comparison.  This is the ordering
in which `sort.Sort(byHash(commits))` leaves the slice. -/
def commitLe (a b : Commit) : Prop := bytesCompare a.hash b.hash ≠ 1

instance : DecidableRel commitLe := fun a b => by
  unfold commitLe; infer_instance

instance : IsTotal Commit commitLe :=
  ⟨fun a b => by
    unfold commitLe
    rcases bytesCompare_trichotomy a.hash b.hash with h | h | h
    · left; simp [h]
    · left; simp [h]
    · right
      rw [bytesCompare_swap] at h
      omega⟩

instance : IsTrans Commit commitLe :=
  ⟨fun _ _ _ h1 h2 => bytesCompare_le_trans h1 h2⟩

/-- Model of `sort.Sort(byHash(commits))`: a permutation of the input sorted
so that adjacent elements satisfy `¬ byHashLess (c[i+1]) (c[i])`, i.e.
ascending full-hash byte-wise order. -/
def sortByHash (commits : List Commit) : List Commit :=
  commits.insertionSort commitLe

/-- Model of `commit.Hash[len(commit.Hash)-5:]`: the trailing 5 bytes of a
commit's hash. -/
def suffix5 (c : Commit) : List Nat := c.hash.drop (c.hash.length - 5)

/-- Direct transcription of the source's `findHash`: recursive binary search
on the trailing-5-byte suffixes over the (full-hash-)sorted commit list.
Note the upper-half recursion adds `mid + 1` to the recursive result
unconditionally, exactly as the source does. -/
def findHash (commits : List Commit) (shortHash : List Nat) : Int :=
  if h : commits.length = 0 then -1
  else
    let mid := commits.length / 2
    let commitHash :=
      suffix5 (commits.get ⟨mid, Nat.div_lt_self (Nat.pos_of_ne_zero h) one_lt_two⟩)
    let cmp := bytesCompare commitHash shortHash
    if cmp = 1 then
      findHash (commits.take mid) shortHash
    else if cmp = -1 then
      findHash (commits.drop (mid + 1)) shortHash + mid + 1
    else
      (mid : Int)
termination_by commits.length
decreasing_by
  · simp only [List.length_take]
    omega
  · simp only [List.length_drop]
    omega

/-- Model of Go's `fromHexChar`: the value of one hexadecimal digit, `none`
for a non-hex character. -/
def hexDigit (c : Char) : Option Nat :=
  if '0' ≤ c ∧ c ≤ '9' then some (c.toNat - '0'.toNat)
  else if 'a' ≤ c ∧ c ≤ 'f' then some (c.toNat - 'a'.toNat + 10)
  else if 'A' ≤ c ∧ c ≤ 'F' then some (c.toNat - 'A'.toNat + 10)
  else none

/-- Model of `hex.DecodeString` on a character list: decode two hex digits
per output byte; `none` on an odd-length input or an invalid character
(Go reports an error in either case, and the caller only checks `err != nil`). -/
def hexDecodeList : List Char → Option (List Nat)
  | [] => some []
  | [_] => none
  | a :: b :: rest =>
    match hexDigit a, hexDigit b, hexDecodeList rest with
    | some hi, some lo, some tl => some ((hi * 16 + lo) :: tl)
    | _, _, _ => none

/-- Model of `hex.DecodeString(run.Revision)`. -/
def hexDecodeString (s : String) : Option (List Nat) :=
  hexDecodeList s.data

/-- Outcome of the per-record resolution goroutine in `getCommitForRuns`:
`fatal` models `log.Fatal`/`log.Fatalf` (whole-process abort), `miss` the
`idx == -1` early return (slot left absent), `found c` a successful
`found[i] = commits[idx]` write, and `oob` an out-of-range slice index
(a Go runtime panic). -/
inductive ResolveOutcome where
  | fatal : ResolveOutcome
  | miss : ResolveOutcome
  | found : Commit → ResolveOutcome
  | oob : ResolveOutcome
deriving DecidableEq, Repr

/-- Body of the per-record goroutine of `getCommitForRuns`: decode the
revision from hex (`log.Fatal` on error), check the decoded length is 5
(`log.Fatalf` otherwise), look the suffix up with `findHash`, treat `-1` as
a logged miss, and otherwise index `commits[idx]`. -/
def resolveRun (commits : List Commit) (run : TestRun) : ResolveOutcome :=
  match hexDecodeString run.revision with
  | none => .fatal
  | some runHash =>
    if runHash.length ≠ 5 then .fatal
    else
      let idx := findHash commits runHash
      if idx = -1 then .miss
      else if idx < 0 then .oob
      else
        match commits[idx.toNat]? with
        | some c => .found c
        | none => .oob

/-- Value left in the record's slot of the `found` slice by one resolution:
`some c` after a successful match, `none` when the slot is never written. -/
def slotValue (commits : List Commit) (run : TestRun) : Option Commit :=
  match resolveRun commits run with
  | .found c => some c
  | _ => none

/-- The `found` slice of `getCommitForRuns` after all goroutines have
completed: one slot per input record, in input order. -/
def foundArray (commits : List Commit) (runs : List TestRun) : List (Option Commit) :=
  runs.map (slotValue commits)

/-- One concurrent slot write: the goroutine for record `i` stores its
result in `found[i]` (no write when `i` is not a record position). -/
def writeSlot (commits : List Commit) (runs : List TestRun)
    (found : List (Option Commit)) (i : Nat) : List (Option Commit) :=
  match runs[i]? with
  | some run => found.set i (slotValue commits run)
  | none => found

/-- The `found` slice produced when the per-record goroutines complete in
the order given by `order`, starting from the all-`nil` slice
`make([]*object.Commit, len(runs), len(runs))`. -/
def runSchedule (commits : List Commit) (runs : List TestRun)
    (order : List Nat) : List (Option Commit) :=
  order.foldl (writeSlot commits runs) (List.replicate runs.length none)

/-- End-to-end model of `getCommitForRuns`: sort the enumerated commits by
full hash, then resolve every record against the sorted index, collecting
results in input order. -/
def getCommitForRuns (rawCommits : List Commit) (runs : List TestRun) :
    List (Option Commit) :=
  foundArray (sortByHash rawCommits) runs

/-- Abstract repository handle (the model only tracks identity). -/
structure Repo where
  id : Nat
deriving DecidableEq, Repr

/-- Outcome of `git.Open`: the `git.ErrRepositoryNotExists` error, any other
error, or an opened repository. -/
inductive OpenResult where
  | notExists : OpenResult
  | openErr : OpenResult
  | opened : Repo → OpenResult
deriving DecidableEq, Repr

/-- Outcome of `git.Clone`. -/
inductive CloneResult where
  | cloneErr : CloneResult
  | cloned : Repo → CloneResult
deriving DecidableEq, Repr

/-- Outcome of `wt.Pull`: clean pull (`err == nil`), the
`git.NoErrAlreadyUpToDate` sentinel, or any other error. -/
inductive PullResult where
  | pulled : PullResult
  | alreadyUpToDate : PullResult
  | pullErr : PullResult
deriving DecidableEq, Repr

/-- Environment for one `getGit` call: what each git operation would
return. -/
structure GitEnv where
  openRes : OpenResult
  cloneRes : CloneResult
  worktreeOk : Bool
  pullRes : PullResult
deriving DecidableEq, Repr

/-- Result of `getGit`: `fatal` models `log.Fatal`, `ret r` a normal return
(`r = none` is Go's `nil` repository pointer). -/
inductive GitOutcome where
  | fatal : GitOutcome
  | ret : Option Repo → GitOutcome
deriving DecidableEq, Repr

/-- Direct transcription of the source's `getGit`: open the mirror; on
`ErrRepositoryNotExists` clone (fatal on clone error) and then — as the
source does — return `nil`; on any other open error abort; otherwise take
the worktree (fatal on error) and pull, where `NoErrAlreadyUpToDate` and a
clean pull both return the opened repository and any other pull error is
fatal. -/
def getGit (env : GitEnv) : GitOutcome :=
  match env.openRes with
  | .notExists =>
    match env.cloneRes with
    | .cloneErr => .fatal
    | .cloned _ => .ret none
  | .openErr => .fatal
  | .opened repo =>
    if env.worktreeOk then
      match env.pullRes with
      | .pulled => .ret (some repo)
      | .alreadyUpToDate => .ret (some repo)
      | .pullErr => .fatal
    else .fatal

/-- Fuel-indexed variant of `findHash`, recursing on an explicit fuel
counter instead of the slice length; used to state termination of the
source's recursion. -/
def findHashFuel : Nat → List Commit → List Nat → Option Int
  | 0, _, _ => none
  | fuel + 1, commits, shortHash =>
    if h : commits.length = 0 then some (-1)
    else
      let mid := commits.length / 2
      let commitHash :=
        suffix5 (commits.get ⟨mid, Nat.div_lt_self (Nat.pos_of_ne_zero h) one_lt_two⟩)
      let cmp := bytesCompare commitHash shortHash
      if cmp = 1 then
        findHashFuel fuel (commits.take mid) shortHash
      else if cmp = -1 then
        (findHashFuel fuel (commits.drop (mid + 1)) shortHash).map (· + mid + 1)
      else
        some (mid : Int)

theorem findHash_zero {commits : List Commit} (h : commits.length = 0)
    (s : List Nat) : findHash commits s = -1 := by
  rw [findHash]
  simp [h]

theorem findHash_pos {commits : List Commit} (h : commits.length ≠ 0)
    (s : List Nat) :
    findHash commits s =
      if bytesCompare
          (suffix5 (commits.get ⟨commits.length / 2,
            Nat.div_lt_self (Nat.pos_of_ne_zero h) one_lt_two⟩)) s = 1 then
        findHash (commits.take (commits.length / 2)) s
      else if bytesCompare
          (suffix5 (commits.get ⟨commits.length / 2,
            Nat.div_lt_self (Nat.pos_of_ne_zero h) one_lt_two⟩)) s = -1 then
        findHash (commits.drop (commits.length / 2 + 1)) s
          + commits.length / 2 + 1
      else
        (commits.length / 2 : Int) := by
  rw [findHash]
  simp [h]

theorem findHashFuel_correct :
    ∀ (fuel : Nat) (commits : List Commit) (s : List Nat),
      commits.length < fuel →
      findHashFuel fuel commits s = some (findHash commits s) := by
  intro fuel
  induction fuel with
  | zero => intro commits s hlt; omega
  | succ n ih =>
    intro commits s hlt
    by_cases h : commits.length = 0
    · rw [findHash_zero h]
      simp [findHashFuel, h]
    · rw [findHash_pos h, findHashFuel]
      have hmid : commits.length / 2 < commits.length :=
        Nat.div_lt_self (Nat.pos_of_ne_zero h) one_lt_two
      simp only [h, dite_false]
      split_ifs with hc1 hc2
      · exact ih _ s (by simp [List.length_take]; omega)
      · rw [ih _ s (by simp [List.length_drop]; omega)]
        simp
      · rfl

/-- Evaluation bridge: `findHash` agrees with the structurally recursive
`findHashFuel` at fuel `length + 1`, so concrete values of `findHash` can be
computed by reduction. -/
theorem findHash_eval (commits : List Commit) (s : List Nat) :
    findHash commits s =
      (findHashFuel (commits.length + 1) commits s).getD (-1) := by
  rw [findHashFuel_correct (commits.length + 1) commits s (by omega)]
  rfl

theorem findHash_bounds (commits : List Commit) (s : List Nat) :
    findHash commits s = -1 ∨
      (0 ≤ findHash commits s ∧ findHash commits s < commits.length) := by
  have aux : ∀ (n : Nat) (l : List Commit), l.length ≤ n → ∀ (t : List Nat),
      findHash l t = -1 ∨ (0 ≤ findHash l t ∧ findHash l t < l.length) := by
    intro n
    induction n with
    | zero =>
      intro l hle t
      left
      exact findHash_zero (by omega) t
    | succ n ih =>
      intro l hle t
      by_cases h : l.length = 0
      · left; exact findHash_zero h t
      · rw [findHash_pos h]
        have hmid : l.length / 2 < l.length :=
          Nat.div_lt_self (Nat.pos_of_ne_zero h) one_lt_two
        split_ifs with hc1 hc2
        · rcases ih (l.take (l.length / 2)) (by simp [List.length_take]; omega) t
            with hm | ⟨h0, hlt⟩
          · left; exact hm
          · right
            refine ⟨h0, ?_⟩
            have : (l.take (l.length / 2)).length ≤ l.length := by
              simp [List.length_take]
            omega
        · rcases ih (l.drop (l.length / 2 + 1)) (by simp [List.length_drop]; omega) t
            with hm | ⟨h0, hlt⟩
          · right
            rw [hm]
            constructor
            · omega
            · omega
          · right
            simp only [List.length_drop] at hlt
            constructor
            · omega
            · omega
        · right
          constructor
          · positivity
          · exact_mod_cast hmid
  exact aux commits.length commits (Nat.le_refl _) s

/-- The suffix ordering the binary search implicitly relies on:
`suffix5 a <= suffix5 b` under byte-wise comparison. -/
def suffixLe (a b : Commit) : Prop :=
  bytesCompare (suffix5 a) (suffix5 b) ≠ 1

instance : DecidableRel suffixLe := fun a b => by
  unfold suffixLe; infer_instance

theorem findHash_finds_aux :
    ∀ (n : Nat) (l : List Commit), l.length ≤ n → l.Pairwise suffixLe →
      ∀ (s : List Nat) (p : Nat), (l[p]?).map suffix5 = some s →
      ∃ i : Nat, findHash l s = (i : Int) ∧ (l[i]?).map suffix5 = some s := by
  intro n
  induction n with
  | zero =>
    intro l hle hpair s p hp
    have hl : l = [] := List.length_eq_zero.mp (by omega)
    subst hl
    simp at hp
  | succ n ih =>
    intro l hle hpair s p hp
    obtain ⟨cp, hcp, hcps⟩ := Option.map_eq_some'.mp hp
    obtain ⟨hplt, hcpe⟩ := List.getElem?_eq_some.mp hcp
    have h0 : l.length ≠ 0 := by omega
    have hmid : l.length / 2 < l.length :=
      Nat.div_lt_self (Nat.pos_of_ne_zero h0) one_lt_two
    have hgetp : l.get ⟨p, hplt⟩ = cp := hcpe
    rw [findHash_pos h0]
    split_ifs with hc1 hc2
    · -- the probed suffix is larger than the key: the key sits left of mid
      have hpm : p < l.length / 2 := by
        rcases Nat.lt_trichotomy p (l.length / 2) with hlt | heq | hgt
        · exact hlt
        · exfalso
          have hfin : (⟨l.length / 2, hmid⟩ : Fin l.length) = ⟨p, hplt⟩ :=
            Fin.ext (by simp only [Fin.val_mk]; omega)
          rw [hfin, hgetp, hcps, bytesCompare_self] at hc1
          exact absurd hc1 (by decide)
        · exfalso
          have hle2 := List.pairwise_iff_get.mp hpair ⟨l.length / 2, hmid⟩
            ⟨p, hplt⟩ hgt
          unfold suffixLe at hle2
          rw [hgetp, hcps] at hle2
          exact hle2 hc1
      have htl : (l.take (l.length / 2)).length = l.length / 2 := by
        simp [List.length_take]
        omega
      have hpair' := List.Pairwise.sublist (List.take_sublist (l.length / 2) l) hpair
      have hp' : ((l.take (l.length / 2))[p]?).map suffix5 = some s := by
        rw [List.getElem?_take_of_lt hpm, hcp]
        simp [hcps]
      obtain ⟨i, hieq, hisuf⟩ := ih (l.take (l.length / 2)) (by omega) hpair' s p hp'
      obtain ⟨ci, hci, hcisuf⟩ := Option.map_eq_some'.mp hisuf
      obtain ⟨hilt, _⟩ := List.getElem?_eq_some.mp hci
      refine ⟨i, hieq, ?_⟩
      rw [← List.getElem?_take_of_lt (show i < l.length / 2 by omega)]
      exact hisuf
    · -- the probed suffix is smaller than the key: the key sits right of mid
      have hpm : l.length / 2 < p := by
        rcases Nat.lt_trichotomy p (l.length / 2) with hlt | heq | hgt
        · exfalso
          have hle2 := List.pairwise_iff_get.mp hpair ⟨p, hplt⟩
            ⟨l.length / 2, hmid⟩ hlt
          unfold suffixLe at hle2
          rw [hgetp, hcps] at hle2
          rw [bytesCompare_swap] at hle2
          rw [hc2] at hle2
          exact hle2 (by decide)
        · exfalso
          have hfin : (⟨l.length / 2, hmid⟩ : Fin l.length) = ⟨p, hplt⟩ :=
            Fin.ext (by simp only [Fin.val_mk]; omega)
          rw [hfin, hgetp, hcps, bytesCompare_self] at hc2
          exact absurd hc2 (by decide)
        · exact hgt
      have hpair' := List.Pairwise.sublist (List.drop_sublist (l.length / 2 + 1) l) hpair
      have hp' : ((l.drop (l.length / 2 + 1))[p - (l.length / 2 + 1)]?).map suffix5
          = some s := by
        rw [List.getElem?_drop]
        rw [show l.length / 2 + 1 + (p - (l.length / 2 + 1)) = p from by omega]
        rw [hcp]
        simp [hcps]
      obtain ⟨i, hieq, hisuf⟩ := ih (l.drop (l.length / 2 + 1))
        (by simp [List.length_drop]; omega) hpair' s (p - (l.length / 2 + 1)) hp'
      refine ⟨i + l.length / 2 + 1, ?_, ?_⟩
      · rw [hieq]
        push_cast
        ring
      · rw [List.getElem?_drop] at hisuf
        rw [show l.length / 2 + 1 + i = i + l.length / 2 + 1 from by omega] at hisuf
        exact hisuf
    · -- exact suffix match at mid
      refine ⟨l.length / 2, rfl, ?_⟩
      have h3 : bytesCompare
          (suffix5 (l.get ⟨l.length / 2,
            Nat.div_lt_self (Nat.pos_of_ne_zero h0) one_lt_two⟩)) s = 0 := by
        rcases bytesCompare_trichotomy
          (suffix5 (l.get ⟨l.length / 2,
            Nat.div_lt_self (Nat.pos_of_ne_zero h0) one_lt_two⟩)) s with h | h | h
        · exact absurd h hc2
        · exact h
        · exact absurd h hc1
      rw [List.getElem?_eq_getElem hmid]
      simp only [Option.map_some']
      exact congrArg some ((bytesCompare_eq_zero_iff _ _).mp h3)

/-- Computable companion of `resolveRun` in which the well-founded `findHash`
is replaced by `findHashFuel` at sufficient fuel; used to evaluate concrete
instances by reduction. -/
def resolveRunE (commits : List Commit) (run : TestRun) : ResolveOutcome :=
  match hexDecodeString run.revision with
  | none => .fatal
  | some runHash =>
    if runHash.length ≠ 5 then .fatal
    else
      let idx := (findHashFuel (commits.length + 1) commits runHash).getD (-1)
      if idx = -1 then .miss
      else if idx < 0 then .oob
      else
        match commits[idx.toNat]? with
        | some c => .found c
        | none => .oob

theorem resolveRun_eq_resolveRunE (commits : List Commit) (run : TestRun) :
    resolveRun commits run = resolveRunE commits run := by
  unfold resolveRun resolveRunE
  simp only [findHash_eval]

theorem writeSlot_length (commits : List Commit) (runs : List TestRun)
    (found : List (Option Commit)) (i : Nat) :
    (writeSlot commits runs found i).length = found.length := by
  unfold writeSlot
  cases runs[i]? <;> simp

theorem foldl_writeSlot_length (commits : List Commit) (runs : List TestRun) :
    ∀ (order : List Nat) (init : List (Option Commit)),
      (order.foldl (writeSlot commits runs) init).length = init.length := by
  intro order
  induction order with
  | nil => intro init; rfl
  | cons i rest ih =>
    intro init
    simp only [List.foldl_cons]
    rw [ih (writeSlot commits runs init i), writeSlot_length]

theorem foldl_writeSlot_getElem? (commits : List Commit) (runs : List TestRun) :
    ∀ (order : List Nat) (init : List (Option Commit)),
      init.length = runs.length → ∀ j, j < runs.length →
      (order.foldl (writeSlot commits runs) init)[j]? =
        if j ∈ order then (runs[j]?).map (slotValue commits) else init[j]? := by
  intro order
  induction order with
  | nil =>
    intro init hlen j hj
    simp
  | cons i rest ih =>
    intro init hlen j hj
    simp only [List.foldl_cons]
    rw [ih (writeSlot commits runs init i) (by rw [writeSlot_length]; exact hlen) j hj]
    by_cases hmem : j ∈ rest
    · simp [hmem, List.mem_cons]
    · simp only [hmem, if_false]
      by_cases hij : i = j
      · subst hij
        obtain ⟨run, hrun⟩ : ∃ r, runs[i]? = some r :=
          ⟨runs[i], List.getElem?_eq_getElem hj⟩
        unfold writeSlot
        rw [hrun]
        rw [List.getElem?_set_eq_of_lt _ (by omega)]
        simp [hrun, List.mem_cons]
      · unfold writeSlot
        have hnotin : ¬ j ∈ i :: rest := by
          simp [List.mem_cons]
          exact ⟨fun h => hij h.symm, hmem⟩
        cases hrun : runs[i]? with
        | none => simp [hnotin]
        | some run =>
          rw [List.getElem?_set_ne hij]
          simp [hnotin]

theorem resolveRun_found_mem (commits : List Commit) (run : TestRun) (c : Commit)
    (h : resolveRun commits run = ResolveOutcome.found c) : c ∈ commits := by
  unfold resolveRun at h
  cases hdec : hexDecodeString run.revision with
  | none => rw [hdec] at h; simp at h
  | some bs =>
    rw [hdec] at h
    dsimp only at h
    by_cases hl : bs.length ≠ 5
    · rw [if_pos hl] at h; simp at h
    · rw [if_neg hl] at h
      split_ifs at h with h1 h2
      cases hg : commits[(findHash commits bs).toNat]? with
        | none => rw [hg] at h; simp at h
        | some c2 =>
          rw [hg] at h
          simp only [ResolveOutcome.found.injEq] at h
          subst h
          exact List.getElem?_mem hg

/-- Claim C1: the claim fails on the code.  Concrete evaluation at the failing
input: the sorted one-commit index whose only hash is twenty zero bytes, and
the query suffix `[0,0,0,0,1]`, which is not the trailing five bytes of any
commit in the index.  The comparison at `mid` returns `-1`, the search
descends into the (empty) upper half, and the `+ mid + 1` adjustment turns
the recursive `-1` into `0`: `findHash` reports index `0` instead of
"not found". -/
theorem findHash_upper_half_miss_not_minus_one :
    sortByHash [⟨List.replicate 20 0⟩] = [⟨List.replicate 20 0⟩] ∧
    suffix5 ⟨List.replicate 20 0⟩ ≠ [0, 0, 0, 0, 1] ∧
    findHash [⟨List.replicate 20 0⟩] [0, 0, 0, 0, 1] = 0 := by
  refine ⟨by decide, by decide, ?_⟩
  rw [findHash_eval]
  decide

/-- Claim C2: the claim fails on the code.  When no mirror exists
(`git.Open` returns `ErrRepositoryNotExists`) and the clone succeeds,
`getGit` returns `nil` (modelled `none`) instead of the freshly cloned
repository, so the caller continues with no repository. -/
theorem getGit_fresh_clone_returns_nil :
    getGit ⟨OpenResult.notExists, CloneResult.cloned ⟨1⟩, true, PullResult.pulled⟩ =
      GitOutcome.ret none ∧
    GitOutcome.ret none ≠ GitOutcome.ret (some ⟨1⟩) := by
  exact ⟨rfl, by decide⟩

/-- Claim C8: when a mirror exists (`git.Open` succeeds) and the worktree is
available, a pull outcome of `NoErrAlreadyUpToDate` — like a clean pull — is
treated as success and the opened repository is returned, while any other
pull error is fatal. -/
theorem getGit_existing_mirror_pull (env : GitEnv) (r : Repo)
    (hopen : env.openRes = OpenResult.opened r)
    (hwt : env.worktreeOk = true) :
    (env.pullRes = PullResult.alreadyUpToDate →
      getGit env = GitOutcome.ret (some r)) ∧
    (env.pullRes = PullResult.pulled → getGit env = GitOutcome.ret (some r)) ∧
    (env.pullRes = PullResult.pullErr → getGit env = GitOutcome.fatal) := by
  refine ⟨fun hp => ?_, fun hp => ?_, fun hp => ?_⟩ <;>
    simp [getGit, hopen, hwt, hp]

theorem getGit_existing_mirror_pull_witness :
    (⟨OpenResult.opened ⟨0⟩, CloneResult.cloneErr, true,
        PullResult.alreadyUpToDate⟩ : GitEnv).openRes = OpenResult.opened ⟨0⟩ ∧
    getGit ⟨OpenResult.opened ⟨0⟩, CloneResult.cloneErr, true,
        PullResult.alreadyUpToDate⟩ = GitOutcome.ret (some ⟨0⟩) ∧
    getGit ⟨OpenResult.opened ⟨0⟩, CloneResult.cloneErr, true,
        PullResult.pullErr⟩ = GitOutcome.fatal :=
  ⟨rfl,
   (getGit_existing_mirror_pull _ ⟨0⟩ rfl rfl).1 rfl,
   (getGit_existing_mirror_pull _ ⟨0⟩ rfl rfl).2.2 rfl⟩

/-- Claim C10: `findHash` terminates on every input: the recursion is well-founded
on the slice length.  Concretely, the fuel-indexed variant with any fuel
exceeding the slice length computes the same total function, and each
recursive argument (`commits[:mid]`, `commits[mid+1:]`) is strictly shorter
than the input slice. -/
theorem findHash_terminates (fuel : Nat) (commits : List Commit) (s : List Nat)
    (hfuel : commits.length < fuel) :
    findHashFuel fuel commits s = some (findHash commits s) ∧
    (commits.length ≠ 0 →
      (commits.take (commits.length / 2)).length < commits.length ∧
      (commits.drop (commits.length / 2 + 1)).length < commits.length) := by
  refine ⟨findHashFuel_correct fuel commits s hfuel, fun h => ⟨?_, ?_⟩⟩
  · simp only [List.length_take]
    omega
  · simp only [List.length_drop]
    omega

theorem findHash_terminates_witness :
    ([⟨List.replicate 20 0⟩] : List Commit).length < 2 ∧
    findHashFuel 2 [⟨List.replicate 20 0⟩] [0, 0, 0, 0, 0] =
      some (findHash [⟨List.replicate 20 0⟩] [0, 0, 0, 0, 0]) :=
  ⟨by decide, (findHash_terminates 2 [⟨List.replicate 20 0⟩] [0, 0, 0, 0, 0]
    (by decide)).1⟩

/-- Claim C9: `findHash` always returns `-1` or an index in `[0, length)`, so the
caller's `commits[idx]` access after the `-1` check never goes out of bounds
(no resolution reaches the out-of-bounds outcome), and every non-absent slot
of the resolver's output holds a commit of the index. -/
theorem findHash_result_in_bounds (commits : List Commit) :
    (∀ s : List Nat, findHash commits s = -1 ∨
      (0 ≤ findHash commits s ∧ findHash commits s < commits.length)) ∧
    (∀ run : TestRun, resolveRun commits run ≠ ResolveOutcome.oob) ∧
    (∀ (runs : List TestRun) (i : Nat) (c : Commit),
      (foundArray commits runs)[i]? = some (some c) → c ∈ commits) := by
  refine ⟨fun s => findHash_bounds commits s, ?_, ?_⟩
  · intro run
    unfold resolveRun
    cases hdec : hexDecodeString run.revision with
    | none => simp
    | some bs =>
      dsimp only
      by_cases hl : bs.length ≠ 5
      · rw [if_pos hl]; simp
      · rw [if_neg hl]
        rcases findHash_bounds commits bs with hm | ⟨h0, hlt⟩
        · rw [if_pos hm]; simp
        · have hne : ¬ findHash commits bs = -1 := by omega
          have hnn : ¬ findHash commits bs < 0 := by omega
          rw [if_neg hne, if_neg hnn]
          have hidx : (findHash commits bs).toNat < commits.length := by omega
          rw [List.getElem?_eq_getElem hidx]
          simp
  · intro runs i c hfound
    unfold foundArray at hfound
    rw [List.getElem?_map] at hfound
    obtain ⟨run, hrun, hslot⟩ := Option.map_eq_some'.mp hfound
    unfold slotValue at hslot
    cases hres : resolveRun commits run with
    | fatal => rw [hres] at hslot; simp at hslot
    | miss => rw [hres] at hslot; simp at hslot
    | oob => rw [hres] at hslot; simp at hslot
    | found c2 =>
      rw [hres] at hslot
      simp only [Option.some.injEq] at hslot
      subst hslot
      exact resolveRun_found_mem commits run c2 hres

theorem findHash_result_in_bounds_witness :
    (foundArray [⟨[0, 0, 0, 0, 0]⟩] [⟨"0000000000"⟩])[0]? =
      some (some ⟨[0, 0, 0, 0, 0]⟩) ∧
    (⟨[0, 0, 0, 0, 0]⟩ : Commit) ∈ ([⟨[0, 0, 0, 0, 0]⟩] : List Commit) :=
  ⟨by simp only [foundArray, List.map_cons, List.map_nil, slotValue, resolveRun_eq_resolveRunE]; decide,
   (findHash_result_in_bounds [⟨[0, 0, 0, 0, 0]⟩]).2.2 [⟨"0000000000"⟩] 0
     ⟨[0, 0, 0, 0, 0]⟩
     (by simp only [foundArray, List.map_cons, List.map_nil, slotValue, resolveRun_eq_resolveRunE]; decide)⟩

instance : IsAntisymm Commit byHashLess :=
  ⟨fun a b h1 h2 => by
    unfold byHashLess at h1 h2
    rw [bytesCompare_swap] at h1
    exact absurd h2 (by omega)⟩

theorem sortByHash_sorted (raw : List Commit) :
    (sortByHash raw).Pairwise commitLe :=
  List.sorted_insertionSort commitLe raw

theorem sortByHash_perm (raw : List Commit) : (sortByHash raw).Perm raw :=
  List.perm_insertionSort commitLe raw

/-- Claim C5: after the index build the commit sequence is sorted ascending by full
hash under byte-wise comparison (`bytesCompare <> 1` on every adjacent pair),
and the result is deterministic: any two enumeration orders of the same
commit set (with pairwise distinct hashes, as git guarantees) sort to the
same sequence. -/
theorem sortByHash_sorted_deterministic (raw raw2 : List Commit)
    (hperm : raw.Perm raw2)
    (hnodup : raw.Pairwise fun a b => a.hash ≠ b.hash) :
    (∀ (i : Nat) (hi : i + 1 < (sortByHash raw).length),
      bytesCompare ((sortByHash raw).get ⟨i, by omega⟩).hash
        ((sortByHash raw).get ⟨i + 1, hi⟩).hash ≠ 1) ∧
    sortByHash raw = sortByHash raw2 := by
  constructor
  · intro i hi
    exact List.pairwise_iff_get.mp (sortByHash_sorted raw) ⟨i, by omega⟩
      ⟨i + 1, hi⟩ (by simp only [Fin.mk_lt_mk]; omega)
  · have hsymm : ∀ {x y : Commit}, x.hash ≠ y.hash → y.hash ≠ x.hash :=
      fun h => Ne.symm h
    have h1 : (sortByHash raw).Pairwise commitLe := sortByHash_sorted raw
    have h2 : (sortByHash raw2).Pairwise commitLe := sortByHash_sorted raw2
    have hp : (sortByHash raw).Perm (sortByHash raw2) :=
      ((sortByHash_perm raw).trans hperm).trans (sortByHash_perm raw2).symm
    have hne1 : (sortByHash raw).Pairwise (fun a b => a.hash ≠ b.hash) :=
      ((sortByHash_perm raw).pairwise_iff hsymm).mpr hnodup
    have hne2 : (sortByHash raw2).Pairwise (fun a b => a.hash ≠ b.hash) :=
      (hp.pairwise_iff hsymm).mp hne1
    have hstrict : ∀ {l : List Commit}, l.Pairwise commitLe →
        l.Pairwise (fun a b => a.hash ≠ b.hash) → l.Pairwise byHashLess := by
      intro l hle hne
      refine (hle.and hne).imp ?_
      intro a b hab
      unfold commitLe at hab
      unfold byHashLess
      rcases bytesCompare_trichotomy a.hash b.hash with h | h | h
      · exact h
      · exact absurd ((bytesCompare_eq_zero_iff _ _).mp h) hab.2
      · exact absurd h hab.1
    exact List.eq_of_perm_of_sorted hp (hstrict h1 hne1) (hstrict h2 hne2)

theorem sortByHash_sorted_deterministic_witness :
    ([⟨[1]⟩, ⟨[0]⟩] : List Commit).Perm [⟨[0]⟩, ⟨[1]⟩] ∧
    ([⟨[1]⟩, ⟨[0]⟩] : List Commit).Pairwise (fun a b => a.hash ≠ b.hash) ∧
    sortByHash [⟨[1]⟩, ⟨[0]⟩] = sortByHash [⟨[0]⟩, ⟨[1]⟩] :=
  ⟨by decide, by decide,
   (sortByHash_sorted_deterministic [⟨[1]⟩, ⟨[0]⟩] [⟨[0]⟩, ⟨[1]⟩]
     (by decide) (by decide)).2⟩

theorem hexDecodeList_all_hex :
    ∀ (n : Nat) (l : List Char), l.length ≤ n →
      (∀ c ∈ l, (hexDigit c).isSome) → l.length % 2 = 0 →
      ∃ bs, hexDecodeList l = some bs ∧ bs.length = l.length / 2 := by
  intro n
  induction n with
  | zero =>
    intro l hle _ _
    have hl : l = [] := List.length_eq_zero.mp (by omega)
    subst hl
    exact ⟨[], rfl, rfl⟩
  | succ n ih =>
    intro l hle hhex hpar
    cases l with
    | nil => exact ⟨[], rfl, rfl⟩
    | cons a t =>
      cases t with
      | nil => simp at hpar
      | cons b rest =>
        have ha : (hexDigit a).isSome := hhex a (by simp)
        have hb : (hexDigit b).isSome := hhex b (by simp)
        obtain ⟨da, hda⟩ := Option.isSome_iff_exists.mp ha
        obtain ⟨db, hdb⟩ := Option.isSome_iff_exists.mp hb
        obtain ⟨bs, hbs, hlen⟩ := ih rest (by simp at hle ⊢; omega)
          (fun c hc => hhex c (by simp [hc]))
          (by simp at hpar ⊢; omega)
        refine ⟨(da * 16 + db) :: bs, ?_, ?_⟩
        · simp [hexDecodeList, hda, hdb, hbs]
        · simp only [List.length_cons, hlen]
          omega

/-- Claim C6: a record whose revision fails hexadecimal decoding, or decodes to a
byte length other than 5, makes the resolution goroutine call
`log.Fatal`/`log.Fatalf` (whole-run abort); a revision of exactly 10
hexadecimal characters decodes to 5 bytes and never takes either fatal
branch. -/
theorem resolveRun_malformed_fatal (commits : List Commit) (run : TestRun) :
    (hexDecodeString run.revision = none →
      resolveRun commits run = ResolveOutcome.fatal) ∧
    (∀ bs : List Nat, hexDecodeString run.revision = some bs → bs.length ≠ 5 →
      resolveRun commits run = ResolveOutcome.fatal) ∧
    (run.revision.data.length = 10 →
      (∀ c ∈ run.revision.data, (hexDigit c).isSome) →
      resolveRun commits run ≠ ResolveOutcome.fatal) := by
  refine ⟨?_, ?_, ?_⟩
  · intro h
    unfold resolveRun
    rw [h]
  · intro bs h hlen
    unfold resolveRun
    rw [h]
    dsimp only
    rw [if_pos hlen]
  · intro hlen hhex
    obtain ⟨bs, hbs, hbl⟩ := hexDecodeList_all_hex run.revision.data.length
      run.revision.data le_rfl hhex (by omega)
    unfold resolveRun
    rw [show hexDecodeString run.revision = some bs from hbs]
    dsimp only
    rw [if_neg (by omega)]
    split_ifs
    · simp
    · simp
    · cases hg : commits[(findHash commits bs).toNat]? <;> simp

theorem resolveRun_malformed_fatal_witness :
    hexDecodeString ("zz") = none ∧
    resolveRun [] ⟨"zz"⟩ = ResolveOutcome.fatal ∧
    hexDecodeString ("aabb") = some [170, 187] ∧
    resolveRun [] ⟨"aabb"⟩ = ResolveOutcome.fatal ∧
    ("aabbccddee" : String).data.length = 10 ∧
    resolveRun [] ⟨"aabbccddee"⟩ ≠ ResolveOutcome.fatal :=
  ⟨by decide,
   (resolveRun_malformed_fatal [] ⟨"zz"⟩).1 (by decide),
   by decide,
   (resolveRun_malformed_fatal [] ⟨"aabb"⟩).2.1 [170, 187] (by decide) (by decide),
   by decide,
   (resolveRun_malformed_fatal [] ⟨"aabbccddee"⟩).2.2 (by decide) (by decide)⟩

/-- Claim C7: a record whose well-formed 5-byte suffix gets lookup result `-1`
resolves to a logged miss, not an abort: its output slot stays absent
(`nil`), and every other record's slot still holds exactly that record's own
resolution outcome. -/
theorem resolveRun_miss_recoverable (rawCommits : List Commit)
    (runs : List TestRun) (i : Nat) (hi : i < runs.length) (s : List Nat)
    (hdec : hexDecodeString (runs.get ⟨i, hi⟩).revision = some s)
    (hlen : s.length = 5)
    (hmiss : findHash (sortByHash rawCommits) s = -1) :
    resolveRun (sortByHash rawCommits) (runs.get ⟨i, hi⟩) =
      ResolveOutcome.miss ∧
    (getCommitForRuns rawCommits runs)[i]? = some none ∧
    (∀ j : Nat, j ≠ i →
      (getCommitForRuns rawCommits runs)[j]? =
        (runs[j]?).map (slotValue (sortByHash rawCommits))) := by
  have hres : resolveRun (sortByHash rawCommits) (runs.get ⟨i, hi⟩) =
      ResolveOutcome.miss := by
    unfold resolveRun
    rw [hdec]
    dsimp only
    rw [if_neg (by omega)]
    rw [if_pos hmiss]
  refine ⟨hres, ?_, ?_⟩
  · unfold getCommitForRuns foundArray
    rw [List.getElem?_map, List.getElem?_eq_getElem hi]
    simp only [Option.map_some']
    unfold slotValue
    rw [show runs[i] = runs.get ⟨i, hi⟩ from rfl, hres]
  · intro j _
    unfold getCommitForRuns foundArray
    rw [List.getElem?_map]

theorem resolveRun_miss_recoverable_witness :
    0 < ([⟨"aabbccddee"⟩] : List TestRun).length ∧
    hexDecodeString ("aabbccddee") = some [170, 187, 204, 221, 238] ∧
    findHash (sortByHash []) [170, 187, 204, 221, 238] = -1 ∧
    (getCommitForRuns [] [⟨"aabbccddee"⟩])[0]? = some none :=
  ⟨by decide, by decide,
   by rw [findHash_eval]; decide,
   (resolveRun_miss_recoverable [] [⟨"aabbccddee"⟩] 0 (by decide)
     [170, 187, 204, 221, 238] (by decide) (by decide)
     (by rw [findHash_eval]; decide)).2.1⟩

/-- Claim C4: the concurrent per-record resolution is order-independent: whatever
order the goroutines complete their slot writes in (any permutation of the
record positions), the final `found` slice equals the in-order per-record
resolution, slot `i` holding exactly record `i`'s outcome; zero records
yield the empty mapping. -/
theorem getCommitForRuns_order_preserving (rawCommits : List Commit)
    (runs : List TestRun) (order : List Nat)
    (hperm : order.Perm (List.range runs.length))
    (hnofatal : ∀ r ∈ runs,
      resolveRun (sortByHash rawCommits) r ≠ ResolveOutcome.fatal) :
    runSchedule (sortByHash rawCommits) runs order =
      getCommitForRuns rawCommits runs ∧
    (∀ j : Nat, (runSchedule (sortByHash rawCommits) runs order)[j]? =
      (runs[j]?).map (slotValue (sortByHash rawCommits))) ∧
    (runs = [] → runSchedule (sortByHash rawCommits) runs order = []) := by
  have hslot : ∀ j : Nat, (runSchedule (sortByHash rawCommits) runs order)[j]? =
      (runs[j]?).map (slotValue (sortByHash rawCommits)) := by
    intro j
    by_cases hj : j < runs.length
    · unfold runSchedule
      rw [foldl_writeSlot_getElem? (sortByHash rawCommits) runs order
        (List.replicate runs.length none) (by simp) j hj]
      rw [if_pos (hperm.mem_iff.mpr (List.mem_range.mpr hj))]
    · have h1 : (runSchedule (sortByHash rawCommits) runs order).length =
          runs.length := by
        unfold runSchedule
        rw [foldl_writeSlot_length]
        simp
      rw [List.getElem?_eq_none (by omega), List.getElem?_eq_none (by omega)]
      simp
  refine ⟨?_, hslot, ?_⟩
  · apply List.ext_getElem?
    intro j
    rw [hslot j]
    unfold getCommitForRuns foundArray
    rw [List.getElem?_map]
  · intro h
    subst h
    apply List.ext_getElem?
    intro j
    rw [hslot j]
    simp

theorem getCommitForRuns_order_preserving_witness :
    ([1, 0] : List Nat).Perm (List.range ([⟨"aabbccddee"⟩, ⟨"0000000000"⟩] :
      List TestRun).length) ∧
    runSchedule (sortByHash []) [⟨"aabbccddee"⟩, ⟨"0000000000"⟩] [1, 0] =
      getCommitForRuns [] [⟨"aabbccddee"⟩, ⟨"0000000000"⟩] :=
  ⟨by decide,
   (getCommitForRuns_order_preserving [] [⟨"aabbccddee"⟩, ⟨"0000000000"⟩]
     [1, 0] (by decide)
     (by
       intro r hr
       rw [resolveRun_eq_resolveRunE]
       simp only [List.mem_cons, List.mem_singleton, List.not_mem_nil,
         or_false] at hr
       rcases hr with h | h
       · subst h; decide
       · subst h; decide)).1⟩

/-- A commit whose full hash is byte-wise small but whose trailing-5-byte
suffix is large. -/
def cexSmallHashBigSuffix : Commit :=
  ⟨List.replicate 15 0 ++ [9, 9, 9, 9, 9]⟩

/-- A commit whose full hash is byte-wise large but whose trailing-5-byte
suffix is small. -/
def cexBigHashSmallSuffix : Commit :=
  ⟨1 :: (List.replicate 14 0 ++ [0, 0, 0, 0, 1])⟩

/-- Claim C3 counterexample: build the index from the two commits above — the
full-hash sort places the small-hash commit first, but its suffix is the
larger one.  Looking up the exact trailing-5-byte suffix of the member
commit `cexSmallHashBigSuffix` returns index 1, whose commit has a different
suffix: build-then-lookup does not return a commit with the queried suffix,
refuting the claim for this non-empty commit set. -/
theorem findHash_exact_suffix_counterexample :
    cexSmallHashBigSuffix ∈ [cexBigHashSmallSuffix, cexSmallHashBigSuffix] ∧
    sortByHash [cexBigHashSmallSuffix, cexSmallHashBigSuffix] =
      [cexSmallHashBigSuffix, cexBigHashSmallSuffix] ∧
    findHash (sortByHash [cexBigHashSmallSuffix, cexSmallHashBigSuffix])
      (suffix5 cexSmallHashBigSuffix) = 1 ∧
    suffix5 cexBigHashSmallSuffix ≠ suffix5 cexSmallHashBigSuffix := by
  refine ⟨by decide, by decide, ?_, by decide⟩
  rw [findHash_eval]
  decide

/-- Claim C3 (amended): the claim as stated fails because the index is sorted by
full hash while the search compares only trailing-5-byte suffixes; it holds
whenever the built index's suffixes are themselves in ascending byte-wise
order (`suffixLe`).  Then looking up the exact suffix of any member commit
returns an index holding a commit with that suffix. -/
theorem getCommitForRuns_lookup_finds (raw : List Commit) (c : Commit)
    (hc : c ∈ raw)
    (hsorted : (sortByHash raw).Pairwise suffixLe) :
    ∃ i : Nat, findHash (sortByHash raw) (suffix5 c) = (i : Int) ∧
      ((sortByHash raw)[i]?).map suffix5 = some (suffix5 c) := by
  have hcmem : c ∈ sortByHash raw := by
    unfold sortByHash
    rw [List.mem_insertionSort]
    exact hc
  obtain ⟨p, hp, hpe⟩ := List.getElem_of_mem hcmem
  exact findHash_finds_aux (sortByHash raw).length (sortByHash raw) le_rfl
    hsorted (suffix5 c) p
    (by rw [List.getElem?_eq_getElem hp, Option.map_some', hpe])

theorem getCommitForRuns_lookup_finds_witness :
    (⟨List.replicate 20 7⟩ : Commit) ∈ ([⟨List.replicate 20 7⟩] : List Commit) ∧
    (sortByHash [⟨List.replicate 20 7⟩]).Pairwise suffixLe ∧
    (∃ i : Nat, findHash (sortByHash [⟨List.replicate 20 7⟩])
        (suffix5 ⟨List.replicate 20 7⟩) = (i : Int) ∧
      ((sortByHash [⟨List.replicate 20 7⟩])[i]?).map suffix5 =
        some (suffix5 ⟨List.replicate 20 7⟩)) :=
  ⟨by decide, by decide,
   getCommitForRuns_lookup_finds [⟨List.replicate 20 7⟩] ⟨List.replicate 20 7⟩
     (by decide) (by decide)⟩
